import Mathlib

/-!
Verification of the `cff-chat-bot` repository: a bounded-depth BFS web
crawler (`crawler.py`) and a staff-directory question-answering service
(`main.py`).

The Python code is shallowly embedded:
* strings are Lean `String`s (lists of Unicode code points, which matches
  Python's `str` model);
* Python's `str.strip`, `str.splitlines`, `str.lower`, `in` (substring
  test) and `str.endswith` are given executable models below;
* the crawl loop is a function of an environment of oracles standing for
  the I/O-bound helpers (`requests.get` inside `fetch_html`, the
  BeautifulSoup-based `extract_main_text` / `extract_links`, the md5 in
  `text_hash`, and the `urlparse`-based string-level `is_allowed_url`);
* the FastAPI endpoint `ask_ai` is a pure function returning either an
  HTTP error code or an answer together with a flag recording whether the
  Ollama language-model backend was invoked.
-/

namespace CffBot

/-! ### Substring and affix tests on character lists

`startsWithL p l` tests whether `p` is a leading block of `l`;
`occursInL p l` models Python's `p in l` substring test. -/

def startsWithL : List Char → List Char → Bool
  | [], _ => true
  | _ :: _, [] => false
  | a :: as, b :: bs => a == b && startsWithL as bs

def occursInL (pat : List Char) : List Char → Bool
  | [] => pat.isEmpty
  | c :: rest => startsWithL pat (c :: rest) || occursInL pat rest

/-- Python's `pat in s` substring containment on strings. -/
def occursIn (pat s : String) : Bool := occursInL pat.data s.data

/-- Python's `s.endswith pat` on strings. -/
def strEndsWith (s pat : String) : Bool :=
  startsWithL pat.data.reverse s.data.reverse

/-! ### Python whitespace, `str.strip` and `str.splitlines`

`isLineBreak` lists the code points Python's `str.splitlines` treats as
line boundaries; `pyIsSpace` additionally contains the non-breaking
whitespace recognised by `str.strip` / `str.isspace`.  Every line break
is whitespace. -/

def isLineBreak (c : Char) : Bool :=
  ['\n', '\r', '\x0b', '\x0c', '\x1c', '\x1d', '\x1e',
   '\u0085', '\u2028', '\u2029'].contains c

def pyIsSpace (c : Char) : Bool :=
  isLineBreak c ||
  [' ', '\t', '\u00A0', '\u1680', '\u2000', '\u2001', '\u2002', '\u2003',
   '\u2004', '\u2005', '\u2006', '\u2007', '\u2008', '\u2009', '\u200A',
   '\u202F', '\u205F', '\u3000'].contains c

/-- Removes the trailing run of Python whitespace from a character list. -/
def dropTrailing : List Char → List Char
  | [] => []
  | c :: l =>
    match dropTrailing l with
    | [] => if pyIsSpace c then [] else [c]
    | r => c :: r

/-- Python's `str.strip()` on a character list: remove trailing then
leading whitespace. -/
def pyStripL (l : List Char) : List Char :=
  (dropTrailing l).dropWhile pyIsSpace

/-- Python's `s.strip()` on strings. -/
def pyStrip (s : String) : String := ⟨pyStripL s.data⟩

/-! ### Python `str.splitlines`

`splitAux acc l` scans `l`, accumulating the current line in `acc`
(reversed); a line-break character terminates a line, with the pair
`"\r\n"` counting as a single break, and a final partial line is emitted
only if non-empty — exactly Python's `str.splitlines()`. -/

def splitAux (acc : List Char) (l : List Char) : List (List Char) :=
  match l with
  | [] => if acc.isEmpty then [] else [acc.reverse]
  | c :: rest =>
    if c = '\r' ∧ rest.head? = some '\n' then
      acc.reverse :: splitAux [] rest.tail
    else if isLineBreak c then
      acc.reverse :: splitAux [] rest
    else
      splitAux (c :: acc) rest
termination_by l.length
decreasing_by
  · simp only [List.length_cons, List.length_tail]
    omega
  · simp
  · simp

/-- Python's `s.splitlines()` on strings. -/
def pySplitlines (s : String) : List String :=
  (splitAux [] s.data).map String.mk

/-- Prepending a pending accumulator onto a list of split segments. -/
def prependAcc (acc : List Char) (S : List (List Char)) : List (List Char) :=
  match S with
  | [] => if acc.isEmpty then [] else [acc.reverse]
  | s :: ss => (acc.reverse ++ s) :: ss

/-- Joining a list of lines with a newline separator (Python's
`"\n".join(lines)`). -/
def joinNL : List (List Char) → List Char
  | [] => []
  | [x] => x
  | x :: y :: r => x ++ '\n' :: joinNL (y :: r)

/-- Relation `SegTrim A B`: `A` is `B` with trailing whitespace-only segments
removed and the trailing whitespace of the last surviving segment
trimmed. -/
inductive SegTrim : List (List Char) → List (List Char) → Prop where
  | allSpace (B : List (List Char)) (h : ∀ x ∈ B, ∀ c ∈ x, pyIsSpace c = true) :
      SegTrim [] B
  | last (b : List Char) (B : List (List Char))
      (h : ∀ x ∈ B, ∀ c ∈ x, pyIsSpace c = true)
      (hb : dropTrailing b ≠ []) : SegTrim [dropTrailing b] (b :: B)
  | cons (s : List Char) {A B : List (List Char)} (h : SegTrim A B) :
      SegTrim (s :: A) (s :: B)

/-! ### `clean_lines` (crawler.py, lines 99-142)

The body text is split into lines, each line is stripped, noise lines are
dropped by a cascade of filters, adjacent duplicate lines are collapsed,
and if everything was dropped the stripped original text is returned. -/

def pyLowerL (l : List Char) : List Char := l.map Char.toLower

/-- Python's `s.lower()` (the source only lowercases ASCII markers). -/
def pyLower (s : String) : String := ⟨pyLowerL s.data⟩

/-- The line-dropping cascade of `clean_lines`: blank lines, lines of at
most two characters, copyright lines, region+education-office lines,
phone/fax lines, reproduction notices and breadcrumb lines. -/
def lineDropped (ln : List Char) : Bool :=
  ln.isEmpty
  || decide (ln.length ≤ 2)
  || occursInL "copyright".data (pyLowerL ln)
  || (occursInL "경상남도".data ln && occursInL "교육청".data ln)
  || (occursInL "전화".data ln && occursInL "-".data ln)
  || (occursInL "팩스".data ln && occursInL "-".data ln)
  || occursInL "무단 전재".data ln
  || occursInL "재배포 금지".data ln
  || occursInL "홈 >".data ln
  || occursInL "home >".data (pyLowerL ln)

/-- One step of the cleaning loop: drop noise lines and adjacent
duplicates, otherwise keep the line (the kept list is accumulated in
reverse). -/
def cleanFold (acc : List (List Char)) (ln : List Char) : List (List Char) :=
  if lineDropped ln then acc
  else if acc.head? = some ln then acc
  else ln :: acc

/-- Function `clean_lines` on character lists. -/
def cleanLinesL (text : List Char) : List Char :=
  let lines := (splitAux [] text).map pyStripL
  let cleaned := (lines.foldl cleanFold []).reverse
  if cleaned.isEmpty then pyStripL text
  else joinNL cleaned

/-- Function `clean_lines` from crawler.py. -/
def clean_lines (s : String) : String := ⟨cleanLinesL s.data⟩

/-! ### `is_allowed_url` (crawler.py, lines 47-76)

A parsed URL (the result of `urllib.parse.urlparse`) is modelled by its
`scheme`, `netloc` and `path` components, the only components the filter
reads. -/

structure Url where
  scheme : String
  netloc : String
  path : String

/-- Constant `ALLOWED_DOMAIN` from crawler.py line 25. -/
def ALLOWED_DOMAIN : String := "ogya-h.gne.go.kr"

/-- Constant `blocked_ext` from crawler.py lines 68-72. -/
def blocked_ext : List String :=
  [".pdf", ".hwp", ".hwpx", ".xls", ".xlsx",
   ".doc", ".docx", ".ppt", ".pptx",
   ".jpg", ".jpeg", ".png", ".gif", ".zip"]

/-- Function `is_allowed_url` from crawler.py: scheme must be http or https, the
allowed domain must occur in the netloc, and the lowercased path must not
end with a blocked extension. -/
def is_allowed_url (u : Url) : Bool :=
  if u.scheme ≠ "http" ∧ u.scheme ≠ "https" then false
  else if occursIn ALLOWED_DOMAIN u.netloc = false then false
  else if blocked_ext.any (fun ext => strEndsWith (pyLower u.path) ext) then false
  else true

/-! ### The crawl loop (crawler.py, lines 235-300)

The loop is parametrised by an environment of oracles: `fetch` stands
for `fetch_html` (network I/O, `none` models any soft fetch failure),
`extractText` for `extract_main_text`, `extractLinks` for
`extract_links` (both depend on the BeautifulSoup HTML parser), and
`textHash` for the md5 `text_hash`; `allowed` stands for the string
level `is_allowed_url` (through `urlparse`).  The state carries, besides
the Python program's `visited` set, `page_count` and emitted records,
two ghost fields used only to state trace properties: the number of
loop iterations and the list of URLs passed to the fetcher. -/

structure PageRecord where
  url : String
  title : String
  depth : Nat
  text : String
  hash : String
deriving DecidableEq

structure CrawlEnv where
  fetch : String → Option String
  extractText : String → String → String × String
  extractLinks : String → String → List String
  textHash : String → String
  allowed : String → Bool

structure CrawlConfig where
  startUrls : List String
  maxPages : Nat
  maxDepth : Nat

structure CrawlState where
  visited : List String
  pageCount : Nat
  records : List PageRecord
  iterations : Nat
  fetched : List String
deriving DecidableEq

/-- The `while queue and page_count < MAX_PAGES` loop of `crawl`. -/
def crawlLoop (env : CrawlEnv) (cfg : CrawlConfig) (queue : List (String × Nat))
    (visited : List String) (count : Nat) (records : List PageRecord)
    (iters : Nat) (fetched : List String) : CrawlState :=
  match queue with
  | [] => ⟨visited, count, records, iters, fetched⟩
  | (url, depth) :: rest =>
    if h : count < cfg.maxPages then
      if url ∈ visited then
        crawlLoop env cfg rest visited count records (iters + 1) fetched
      else
        if cfg.maxDepth < depth then
          crawlLoop env cfg rest (url :: visited) count records (iters + 1) fetched
        else if env.allowed url = false then
          crawlLoop env cfg rest (url :: visited) count records (iters + 1) fetched
        else
          match env.fetch url with
          | none =>
            crawlLoop env cfg rest (url :: visited) count records (iters + 1)
              (fetched ++ [url])
          | some html =>
            let td := env.extractText url html
            if td.2 = "" then
              crawlLoop env cfg rest (url :: visited) count records (iters + 1)
                (fetched ++ [url])
            else
              let record : PageRecord :=
                ⟨url, td.1, depth, td.2, env.textHash td.2⟩
              let links := (env.extractLinks url html).filter
                (fun l => l ∉ url :: visited)
              crawlLoop env cfg (rest ++ links.map (fun l => (l, depth + 1)))
                (url :: visited) (count + 1) (records ++ [record]) (iters + 1)
                (fetched ++ [url])
    else ⟨visited, count, records, iters, fetched⟩
termination_by (cfg.maxPages - count, queue.length)
decreasing_by
  all_goals simp_wf
  all_goals first
    | exact Prod.Lex.right _ (by omega)
    | exact Prod.Lex.left _ _ (by omega)

/-- Function `crawl` from crawler.py: seed the queue with the start URLs at depth
0 (bypassing the filter) and run the loop from an empty visited set. -/
def crawl (env : CrawlEnv) (cfg : CrawlConfig) : CrawlState :=
  crawlLoop env cfg (cfg.startUrls.map (fun u => (u, 0))) [] 0 [] 0 []

/-! ### The question-answering service (main.py)

`STAFF_DB` is a record of teacher and staff entries; `t.get(key)`
returning `None` for a missing key is modelled by `Option`, and
`s.get("role", "")` by a plain string.  The two homeroom regular
expressions of `answer_from_staff_db` are simple enough to implement
directly: a leftmost scan trying the pattern at each position, with the
greedy `\s*` equivalent to `dropWhile` because no whitespace character
is a digit. -/

structure Teacher where
  name : String
  subject : Option String
  homeroom : Option String
  departments : List String
  roles : List String

structure StaffMember where
  name : String
  role : String

structure StaffDb where
  teachers : List Teacher
  staff : List StaffMember

/-- Constant `subject_map` from main.py lines 34-48 (an insertion-ordered dict of
identical key/value pairs). -/
def subject_map : List (String × String) :=
  [("국어", "국어"), ("수학", "수학"), ("영어", "영어"), ("체육", "체육"),
   ("물리", "물리"), ("화학", "화학"), ("생명과학", "생명과학"),
   ("지구과학", "지구과학"), ("사회", "사회"), ("역사", "역사"),
   ("윤리", "윤리"), ("정보", "정보"), ("중국어", "중국어")]

/-- The subject-teacher loop of `answer_from_staff_db` (main.py lines
50-55): the first subject keyword present in the question together with
a teacher marker and at least one matching teacher produces an answer. -/
def subjectAnswer : List (String × String) → List Teacher → String → Option String
  | [], _, _ => none
  | (kw, subj) :: rest, teachers, q =>
    if occursIn kw q && (occursIn "교사" q || occursIn "선생" q) then
      let names := (teachers.filter (fun t => t.subject == some subj)).map Teacher.name
      if names.isEmpty then subjectAnswer rest teachers q
      else some (subj ++ " 교사는 " ++ String.intercalate ", " names ++ " 선생님입니다.")
    else subjectAnswer rest teachers q

def isG13 (c : Char) : Bool := c == '1' || c == '2' || c == '3'

def isC14 (c : Char) : Bool := c == '1' || c == '2' || c == '3' || c == '4'

/-- Matching `([1-3])학년\s*([1-4])반` at the head of the text. -/
def matchGradeClass1 (l : List Char) : Option (Char × Char) :=
  match l with
  | g :: '학' :: '년' :: rest =>
    if isG13 g then
      match rest.dropWhile pyIsSpace with
      | c :: '반' :: _ => if isC14 c then some (g, c) else none
      | _ => none
    else none
  | _ => none

/-- Scan of `re.search` for `([1-3])학년\s*([1-4])반`: leftmost match. -/
def findGradeClass1 : List Char → Option (Char × Char)
  | [] => none
  | c :: rest =>
    match matchGradeClass1 (c :: rest) with
    | some gc => some gc
    | none => findGradeClass1 rest

/-- Matching `([1-3])[- ]\s*([1-4])반?` at the head of the text. -/
def matchGradeClass2 (l : List Char) : Option (Char × Char) :=
  match l with
  | g :: d :: rest =>
    if isG13 g && (d == '-' || d == ' ') then
      match rest.dropWhile pyIsSpace with
      | c :: _ => if isC14 c then some (g, c) else none
      | _ => none
    else none
  | _ => none

/-- Scan of `re.search` for `([1-3])[- ]\s*([1-4])반?`: leftmost match. -/
def findGradeClass2 : List Char → Option (Char × Char)
  | [] => none
  | c :: rest =>
    match matchGradeClass2 (c :: rest) with
    | some gc => some gc
    | none => findGradeClass2 rest

/-- Constant `dept_keywords` from main.py lines 72-81. -/
def dept_keywords : List String :=
  ["교무기획부", "진로진학부", "1학년부", "2학년부",
   "학력연구부", "교육과정부", "안전인성부", "기숙사부"]

/-- The department-head loop of `answer_from_staff_db` (main.py lines
82-88); a keyword whose inner teacher search fails falls through to the
next keyword. -/
def deptAnswer : List String → List Teacher → String → Option String
  | [], _, _ => none
  | dept :: rest, teachers, q =>
    if occursIn dept q && occursIn "부장" q then
      match teachers.find? (fun t =>
          t.departments.contains dept && t.roles.any (fun r => occursIn "부장" r)) with
      | some t => some (dept ++ " 부장은 " ++ t.name ++ " 선생님입니다.")
      | none => deptAnswer rest teachers q
    else deptAnswer rest teachers q

/-- The principal / vice-principal checks of `answer_from_staff_db`
(main.py lines 91-99), each falling through when no staff entry
matches. -/
def principalAnswer (staff : List StaffMember) (q : String) : Option String :=
  match (if occursIn "교장" q then staff.find? (fun s => occursIn "교장" s.role)
         else none) with
  | some s => some ("창녕옥야고등학교 교장은 " ++ s.name ++ "입니다.")
  | none =>
    match (if occursIn "교감" q then staff.find? (fun s => occursIn "교감" s.role)
           else none) with
    | some s => some ("창녕옥야고등학교 교감은 " ++ s.name ++ "입니다.")
    | none => none

/-- The homeroom-independent tail of `answer_from_staff_db`. -/
def tailAnswer (db : StaffDb) (q : String) : Option String :=
  match deptAnswer dept_keywords db.teachers q with
  | some a => some a
  | none => principalAnswer db.staff q

/-- Function `answer_from_staff_db` from main.py lines 29-102, applied to the
already-stripped question `q`. -/
def answer_from_staff_db_q (db : StaffDb) (q : String) : Option String :=
  match subjectAnswer subject_map db.teachers q with
  | some a => some a
  | none =>
    match (findGradeClass1 q.data).orElse (fun _ => findGradeClass2 q.data) with
    | some (g, c) =>
      if occursIn "담임" q then
        match db.teachers.find? (fun t =>
            t.homeroom == some (g.toString ++ "-" ++ c.toString)) with
        | some t =>
          some (g.toString ++ "학년 " ++ c.toString ++ "반 담임은 " ++
            t.name ++ " 선생님입니다.")
        | none =>
          some (g.toString ++ "학년 " ++ c.toString ++ "반 담임 정보는 데이터에 없습니다.")
      else tailAnswer db q
    | none => tailAnswer db q

/-- Function `answer_from_staff_db` from main.py: strips its input first (main.py
line 30). -/
def answer_from_staff_db (db : StaffDb) (question : String) : Option String :=
  answer_from_staff_db_q db (pyStrip question)

/-- Constant `SCHOOL_KEYWORDS` from main.py lines 131-150. -/
def SCHOOL_KEYWORDS : List String :=
  ["창녕옥야고", "옥야고", "우리학교", "학교", "교무실", "행정실", "동아리",
   "학사", "학사일정", "급식", "교복", "입학", "학생수", "시간표", "교칙",
   "시설", "체육관", "도서관"]

/-- Function `is_school_question` from main.py lines 152-154. -/
def is_school_question (q : String) : Bool :=
  SCHOOL_KEYWORDS.any (fun k => occursIn (pyLower k) (pyLower q))

/-- The canned reply of `ask_ai` when a school question arrives with no
knowledge text loaded (main.py lines 230-237). -/
def BLOCKED_MSG : String :=
  "현재 학교 홈페이지 기반 정보가 아직 준비되지 않았습니다. 학교 관련 질문은 나중에 다시 해 주십시오. 그 외 일반 질문이나 잡담은 가능합니다."

/-- Function `ask_ai` from main.py lines 218-246.  Argument `llm` is an oracle for
`call_ollama_chat`; the boolean in the result records whether it was
invoked.  `Except.error n` models `HTTPException(status_code = n)`. -/
def ask_ai (db : StaffDb) (schoolKnowledge : String) (llm : String → String)
    (payload : String) : Except Nat (String × Bool) :=
  if pyStrip payload = "" then Except.error 400
  else
    match answer_from_staff_db db (pyStrip payload) with
    | some a => Except.ok (a, false)
    | none =>
      if is_school_question (pyStrip payload) ∧ schoolKnowledge = "" then
        Except.ok (BLOCKED_MSG, false)
      else Except.ok (llm (pyStrip payload), true)

/-! ### Concrete environments used to evaluate the crawl loop -/

/-- A seed URL of the configured domain whose path ends in the blocked
`.pdf` extension: `is_allowed_url` rejects it. -/
def urlC1 : Url := ⟨"https", "ogya-h.gne.go.kr", "/file.pdf"⟩

/-- An environment in which the string-level URL filter answers as
`is_allowed_url` does on `urlC1`, fetching always succeeds and
extraction always returns a non-blank body: if the seed were processed,
a record would be emitted. -/
def envC1 : CrawlEnv :=
  ⟨fun _ => some "<html>", fun _ _ => ("title", "body text"), fun _ _ => [],
   fun _ => "hash", fun _ => is_allowed_url urlC1⟩

def cfgC1 : CrawlConfig := ⟨["https://ogya-h.gne.go.kr/file.pdf"], 100, 3⟩

/-- An environment whose pages yield no links and whose fetches fail. -/
def envC8 : CrawlEnv :=
  ⟨fun _ => none, fun _ _ => ("", ""), fun _ _ => [], fun _ => "",
   fun _ => true⟩

def cfgC8 : CrawlConfig := ⟨["https://ogya-h.gne.go.kr/ogya-h/main.do"], 100, 3⟩

/-! ### Lemmas and claim theorems -/

theorem startsWithL_iff (p : List Char) : ∀ l : List Char,
    startsWithL p l = true ↔ ∃ t, l = p ++ t := by
  induction p with
  | nil =>
    intro l
    simp [startsWithL]
  | cons a as ih =>
    intro l
    cases l with
    | nil =>
      simp [startsWithL]
    | cons b bs =>
      simp only [startsWithL, Bool.and_eq_true, beq_iff_eq, ih bs]
      constructor
      · rintro ⟨rfl, t, rfl⟩
        exact ⟨t, rfl⟩
      · rintro ⟨t, ht⟩
        cases ht
        exact ⟨rfl, t, rfl⟩

theorem occursInL_iff (pat : List Char) : ∀ l : List Char,
    occursInL pat l = true ↔ ∃ a b, l = a ++ pat ++ b := by
  intro l
  induction l with
  | nil =>
    simp only [occursInL, List.isEmpty_iff]
    constructor
    · rintro rfl
      exact ⟨[], [], rfl⟩
    · rintro ⟨a, b, hab⟩
      rcases List.append_eq_nil.mp hab.symm with ⟨h1, h2⟩
      exact (List.append_eq_nil.mp h1).2
  | cons c rest ih =>
    simp only [occursInL, Bool.or_eq_true, startsWithL_iff, ih]
    constructor
    · rintro (⟨t, ht⟩ | ⟨a, b, hab⟩)
      · exact ⟨[], t, by simpa using ht⟩
      · exact ⟨c :: a, b, by simp [hab]⟩
    · rintro ⟨a, b, hab⟩
      cases a with
      | nil =>
        exact Or.inl ⟨b, by simpa using hab⟩
      | cons x xs =>
        right
        refine ⟨xs, b, ?_⟩
        have := hab
        simp only [List.cons_append, List.append_assoc] at this ⊢
        exact (List.cons.injEq _ _ _ _).mp this |>.2

theorem occursIn_iff (pat s : String) :
    occursIn pat s = true ↔ ∃ a b : String, s = a ++ pat ++ b := by
  have hdata : ∀ x y : String, (x ++ y).data = x.data ++ y.data := by
    intro x y
    rfl
  constructor
  · intro h
    rcases (occursInL_iff pat.data s.data).mp h with ⟨a, b, hab⟩
    refine ⟨⟨a⟩, ⟨b⟩, ?_⟩
    apply congrArg String.mk
    simpa [hdata] using hab
  · rintro ⟨a, b, rfl⟩
    apply (occursInL_iff pat.data _).mpr
    exact ⟨a.data, b.data, by simp [hdata]⟩

theorem strEndsWith_iff (s pat : String) :
    strEndsWith s pat = true ↔ ∃ a : String, s = a ++ pat := by
  have hdata : ∀ x y : String, (x ++ y).data = x.data ++ y.data := by
    intro x y
    rfl
  simp only [strEndsWith, startsWithL_iff]
  constructor
  · rintro ⟨t, ht⟩
    refine ⟨⟨t.reverse⟩, ?_⟩
    apply congrArg String.mk
    have : s.data.reverse.reverse = (pat.data.reverse ++ t).reverse := by
      rw [ht]
    simpa [hdata] using this
  · rintro ⟨a, rfl⟩
    exact ⟨a.data.reverse, by simp [hdata]⟩

theorem pyIsSpace_of_break {c : Char} (h : isLineBreak c = true) :
    pyIsSpace c = true := by
  simp [pyIsSpace, h]

theorem dropTrailing_eq_nil_iff : ∀ l : List Char,
    dropTrailing l = [] ↔ ∀ c ∈ l, pyIsSpace c = true := by
  intro l
  induction l with
  | nil => simp [dropTrailing]
  | cons c l ih =>
    simp only [dropTrailing]
    cases hdt : dropTrailing l with
    | nil =>
      have hall := ih.mp hdt
      by_cases hc : pyIsSpace c = true
      · simp only [if_pos hc]
        constructor
        · intro _ a ha
          rcases List.mem_cons.mp ha with rfl | ha
          · exact hc
          · exact hall a ha
        · intro _
          trivial
      · simp only [if_neg hc]
        constructor
        · intro h
          exact absurd h (by simp)
        · intro h
          exact absurd (h c (List.mem_cons_self c l)) hc
    | cons r rs =>
      constructor
      · intro h
        exact absurd h (by simp)
      · intro h
        have : dropTrailing l = [] := ih.mpr fun x hx => h x (List.mem_cons_of_mem _ hx)
        rw [this] at hdt
        exact absurd hdt (by simp)

theorem dropTrailing_cons_of_ne_nil {l : List Char} (c : Char)
    (h : dropTrailing l ≠ []) : dropTrailing (c :: l) = c :: dropTrailing l := by
  cases hdt : dropTrailing l with
  | nil => exact absurd hdt h
  | cons r rs => simp only [dropTrailing, hdt]

theorem dropTrailing_head_cases (c : Char) (l : List Char) :
    dropTrailing (c :: l) = [] ∨ dropTrailing (c :: l) = c :: dropTrailing l := by
  simp only [dropTrailing]
  cases hdt : dropTrailing l with
  | nil =>
    by_cases hc : pyIsSpace c = true
    · simp [hc]
    · simp [hc]
  | cons r rs => simp

/-- Characters of `dropTrailing l` are characters of `l`. -/
theorem mem_of_mem_dropTrailing : ∀ l : List Char, ∀ c ∈ dropTrailing l, c ∈ l := by
  intro l
  induction l with
  | nil => simp [dropTrailing]
  | cons a l ih =>
    intro c hc
    rcases dropTrailing_head_cases a l with h | h
    · rw [h] at hc
      cases hc
    · rw [h] at hc
      rcases hc with _ | hc
      · exact List.mem_cons_self _ _
      · exact List.mem_cons_of_mem _ (ih _ (by assumption))

/-- Appending whitespace does not change `dropTrailing`. -/
theorem dropTrailing_append_spaces {w : List Char}
    (hw : ∀ c ∈ w, pyIsSpace c = true) :
    ∀ a : List Char, dropTrailing (a ++ w) = dropTrailing a := by
  intro a
  induction a with
  | nil =>
    simp only [List.nil_append, dropTrailing]
    exact (dropTrailing_eq_nil_iff w).mpr hw
  | cons c a ih =>
    show dropTrailing (c :: (a ++ w)) = dropTrailing (c :: a)
    simp only [dropTrailing]
    rw [ih]

/-- Every list `l` is `dropTrailing l` followed by a run of whitespace. -/
theorem dropTrailing_decomp : ∀ l : List Char,
    ∃ w, l = dropTrailing l ++ w ∧ ∀ c ∈ w, pyIsSpace c = true := by
  intro l
  induction l with
  | nil => exact ⟨[], rfl, by simp⟩
  | cons c l ih =>
    rcases ih with ⟨w, hw, hsp⟩
    cases hdt : dropTrailing l with
    | nil =>
      rw [hdt] at hw
      simp only [List.nil_append] at hw
      by_cases hc : pyIsSpace c = true
      · refine ⟨c :: l, ?_, ?_⟩
        · have hz : dropTrailing (c :: l) = [] := by
            simp only [dropTrailing, hdt, if_pos hc]
          rw [hz]
          rfl
        · intro x hx
          rcases List.mem_cons.mp hx with rfl | hx
          · exact hc
          · rw [hw] at hx
            exact hsp x hx
      · refine ⟨w, ?_, hsp⟩
        have hz : dropTrailing (c :: l) = [c] := by
          simp only [dropTrailing, hdt, if_neg hc]
        rw [hz, hw]
        rfl
    | cons r rs =>
      refine ⟨w, ?_, hsp⟩
      have hne : dropTrailing l ≠ [] := by
        rw [hdt]
        simp
      rw [dropTrailing_cons_of_ne_nil c hne, List.cons_append, ← hw]

/-- The last character surviving `dropTrailing` is not whitespace. -/
theorem dropTrailing_getLast?_not_space : ∀ l : List Char, ∀ x,
    (dropTrailing l).getLast? = some x → pyIsSpace x = false := by
  intro l
  induction l with
  | nil => simp [dropTrailing]
  | cons c l ih =>
    intro x hx
    simp only [dropTrailing] at hx
    cases hdt : dropTrailing l with
    | nil =>
      rw [hdt] at hx
      by_cases hc : pyIsSpace c = true
      · rw [if_pos hc] at hx
        cases hx
      · rw [if_neg hc] at hx
        simp only [List.getLast?_singleton, Option.some.injEq] at hx
        subst hx
        simpa using hc
    | cons r rs =>
      rw [hdt] at hx
      rw [List.getLast?_cons_cons] at hx
      exact ih x (hdt ▸ hx)

theorem dropTrailing_idem : ∀ l : List Char,
    dropTrailing (dropTrailing l) = dropTrailing l := by
  intro l
  cases hdt : dropTrailing l with
  | nil => simp [dropTrailing]
  | cons r rs =>
    have hlast : ∀ m : List Char, (∀ x, m.getLast? = some x → pyIsSpace x = false) →
        dropTrailing m = m := by
      intro m
      induction m with
      | nil => simp [dropTrailing]
      | cons a m ihm =>
        intro hm
        cases m with
        | nil =>
          have := hm a (by simp)
          simp [dropTrailing, this]
        | cons b m' =>
          have hrec : dropTrailing (b :: m') = b :: m' := by
            apply ihm
            intro x hx
            apply hm
            rwa [List.getLast?_cons_cons]
          rw [dropTrailing_cons_of_ne_nil a (by simp [hrec]), hrec]
    apply hlast
    intro x hx
    exact dropTrailing_getLast?_not_space l x (hdt ▸ hx)

theorem dropWhile_idem (p : Char → Bool) : ∀ l : List Char,
    (l.dropWhile p).dropWhile p = l.dropWhile p := by
  intro l
  induction l with
  | nil => simp
  | cons c l ih =>
    by_cases hc : p c = true
    · simp [List.dropWhile_cons, hc, ih]
    · simp [List.dropWhile_cons, hc]

theorem pyStripL_idem : ∀ l : List Char, pyStripL (pyStripL l) = pyStripL l := by
  intro l
  unfold pyStripL
  have hsuffix : ∀ m : List Char, ∀ x, (m.dropWhile pyIsSpace).getLast? = some x →
      m.getLast? = some x := by
    intro m
    induction m with
    | nil => simp
    | cons c m ihm =>
      intro x hx
      by_cases hc : pyIsSpace c = true
      · rw [List.dropWhile_cons, if_pos hc] at hx
        have := ihm x hx
        cases m with
        | nil => simp at this
        | cons b m' => rwa [List.getLast?_cons_cons]
      · rw [List.dropWhile_cons, if_neg hc] at hx
        exact hx
  have hdt : dropTrailing ((dropTrailing l).dropWhile pyIsSpace) =
      (dropTrailing l).dropWhile pyIsSpace := by
    have hlast : ∀ m : List Char, (∀ x, m.getLast? = some x → pyIsSpace x = false) →
        dropTrailing m = m := by
      intro m
      induction m with
      | nil => simp [dropTrailing]
      | cons a m ihm =>
        intro hm
        cases m with
        | nil =>
          have := hm a (by simp)
          simp [dropTrailing, this]
        | cons b m' =>
          have hrec : dropTrailing (b :: m') = b :: m' := by
            apply ihm
            intro x hx
            apply hm
            rwa [List.getLast?_cons_cons]
          rw [dropTrailing_cons_of_ne_nil a (by simp [hrec]), hrec]
    apply hlast
    intro x hx
    exact dropTrailing_getLast?_not_space l x (hsuffix _ x hx)
  rw [hdt, dropWhile_idem]

/-- Stripping after prepending a whitespace character strips the rest. -/
theorem pyStripL_cons_space {c : Char} (hc : pyIsSpace c = true) (l : List Char) :
    pyStripL (c :: l) = pyStripL l := by
  unfold pyStripL
  rcases dropTrailing_head_cases c l with h | h
  · rw [h]
    have : dropTrailing l = [] := by
      simp only [dropTrailing] at h
      cases hdt : dropTrailing l with
      | nil => rfl
      | cons r rs =>
        rw [hdt] at h
        exact absurd h (by simp)
    rw [this]
  · rw [h]
    cases hdt : dropTrailing l with
    | nil => simp [List.dropWhile_cons, hc]
    | cons r rs => simp [List.dropWhile_cons, hc]

/-- Appending trailing whitespace does not change the strip. -/
theorem pyStripL_append_spaces {w : List Char}
    (hw : ∀ c ∈ w, pyIsSpace c = true) (a : List Char) :
    pyStripL (a ++ w) = pyStripL a := by
  unfold pyStripL
  rw [dropTrailing_append_spaces hw]

theorem pyStripL_subset : ∀ l : List Char, ∀ c ∈ pyStripL l, c ∈ l := by
  intro l c hc
  unfold pyStripL at hc
  have h1 : c ∈ dropTrailing l := by
    have := List.dropWhile_sublist (l := dropTrailing l) (p := pyIsSpace)
    exact this.subset hc
  exact mem_of_mem_dropTrailing l c h1

theorem splitAux_nil_eq (acc : List Char) :
    splitAux acc [] = if acc.isEmpty then [] else [acc.reverse] := by
  rw [splitAux]

theorem splitAux_cons (acc : List Char) (c : Char) (rest : List Char) :
    splitAux acc (c :: rest) =
      if c = '\r' ∧ rest.head? = some '\n' then
        acc.reverse :: splitAux [] rest.tail
      else if isLineBreak c then
        acc.reverse :: splitAux [] rest
      else
        splitAux (c :: acc) rest := by
  rw [splitAux]

theorem splitAux_crlf (acc : List Char) (rest : List Char) :
    splitAux acc ('\r' :: '\n' :: rest) = acc.reverse :: splitAux [] rest := by
  rw [splitAux_cons]
  simp

theorem splitAux_break {c : Char} (hbr : isLineBreak c = true) (acc rest : List Char)
    (hnot : ¬(c = '\r' ∧ rest.head? = some '\n')) :
    splitAux acc (c :: rest) = acc.reverse :: splitAux [] rest := by
  rw [splitAux_cons, if_neg hnot, if_pos hbr]

theorem splitAux_nonbreak {c : Char} (hc : isLineBreak c = false) (acc rest : List Char) :
    splitAux acc (c :: rest) = splitAux (c :: acc) rest := by
  have hcr : ¬(c = '\r' ∧ rest.head? = some '\n') := by
    rintro ⟨rfl, -⟩
    simp [isLineBreak] at hc
  rw [splitAux_cons, if_neg hcr, if_neg (by simp [hc])]

theorem splitAux_ne_nil : ∀ l acc, acc ≠ [] ∨ l ≠ [] → splitAux acc l ≠ [] := by
  intro l
  induction l with
  | nil =>
    intro acc h
    rcases h with h | h
    · rw [splitAux_nil_eq, if_neg (by simpa [List.isEmpty_iff] using h)]
      simp
    · exact absurd rfl h
  | cons c rest ih =>
    intro acc _
    rw [splitAux_cons]
    by_cases h1 : c = '\r' ∧ rest.head? = some '\n'
    · simp [if_pos h1]
    · rw [if_neg h1]
      by_cases h2 : isLineBreak c = true
      · simp [h2]
      · rw [if_neg (by simp [h2])]
        exact ih (c :: acc) (Or.inl (by simp))

theorem splitAux_eq_prependAcc : ∀ n, ∀ l : List Char, l.length ≤ n → ∀ acc,
    splitAux acc l = prependAcc acc (splitAux [] l) := by
  intro n
  induction n with
  | zero =>
    intro l hl acc
    rw [List.length_eq_zero.mp (Nat.le_zero.mp hl)]
    rw [splitAux_nil_eq, splitAux_nil_eq]
    simp [prependAcc]
  | succ n ih =>
    intro l hl acc
    cases l with
    | nil =>
      rw [splitAux_nil_eq, splitAux_nil_eq]
      simp [prependAcc]
    | cons c rest =>
      by_cases h1 : c = '\r' ∧ rest.head? = some '\n'
      · rw [splitAux_cons, if_pos h1, splitAux_cons, if_pos h1]
        simp [prependAcc]
      · by_cases h2 : isLineBreak c = true
        · rw [splitAux_break h2 acc rest h1, splitAux_break h2 [] rest h1]
          simp [prependAcc]
        · have h2' : isLineBreak c = false := by simpa using h2
          rw [splitAux_nonbreak h2', splitAux_nonbreak h2']
          have hrest : rest.length ≤ n := by
            simp only [List.length_cons] at hl
            omega
          rw [ih rest hrest (c :: acc), ih rest hrest [c]]
          cases hs : splitAux [] rest with
          | nil =>
            simp [prependAcc]
          | cons s ss =>
            simp [prependAcc]

theorem splitAux_acc (acc l : List Char) :
    splitAux acc l = prependAcc acc (splitAux [] l) :=
  splitAux_eq_prependAcc l.length l le_rfl acc

/-- On break-free input, `splitAux` yields the single pending line. -/
theorem splitAux_breakfree : ∀ l : List Char, (∀ c ∈ l, isLineBreak c = false) →
    ∀ acc, splitAux acc l =
      if acc.reverse ++ l = [] then [] else [acc.reverse ++ l] := by
  intro l
  induction l with
  | nil =>
    intro _ acc
    rw [splitAux_nil_eq]
    rcases acc.eq_nil_or_concat with rfl | ⟨a, b, rfl⟩
    · simp
    · simp
  | cons c rest ih =>
    intro hl acc
    have hc : isLineBreak c = false := hl c (List.mem_cons_self c rest)
    rw [splitAux_nonbreak hc]
    rw [ih (fun x hx => hl x (List.mem_cons_of_mem _ hx)) (c :: acc)]
    have h1 : (c :: acc).reverse ++ rest = acc.reverse ++ c :: rest := by
      simp
    rw [h1]

theorem splitAux_append_breakfree :
    ∀ x : List Char, (∀ c ∈ x, isLineBreak c = false) →
    ∀ acc l, splitAux acc (x ++ l) = splitAux (x.reverse ++ acc) l := by
  intro x
  induction x with
  | nil =>
    intro _ acc l
    simp
  | cons c rest ih =>
    intro hx acc l
    have hc : isLineBreak c = false := hx c (List.mem_cons_self c rest)
    rw [List.cons_append, splitAux_nonbreak hc]
    rw [ih (fun a ha => hx a (List.mem_cons_of_mem _ ha)) (c :: acc) l]
    have : rest.reverse ++ c :: acc = (c :: rest).reverse ++ acc := by
      simp
    rw [this]

/-- Round trip: splitting a newline-join of non-empty break-free lines
recovers exactly those lines. -/
theorem splitAux_joinNL : ∀ C : List (List Char), C ≠ [] →
    (∀ x ∈ C, x ≠ [] ∧ ∀ c ∈ x, isLineBreak c = false) →
    splitAux [] (joinNL C) = C := by
  intro C
  induction C with
  | nil => intro h; exact absurd rfl h
  | cons x C ih =>
    intro _ hx
    rcases hx x (List.mem_cons_self x C) with ⟨hxne, hxbf⟩
    cases C with
    | nil =>
      show splitAux [] (joinNL [x]) = [x]
      rw [show joinNL [x] = x from rfl]
      rw [splitAux_breakfree x hxbf []]
      simp [hxne]
    | cons y r =>
      show splitAux [] (joinNL (x :: y :: r)) = x :: y :: r
      rw [show joinNL (x :: y :: r) = x ++ '\n' :: joinNL (y :: r) from rfl]
      rw [splitAux_append_breakfree x hxbf [] ('\n' :: joinNL (y :: r))]
      have hn : isLineBreak '\n' = true := by decide
      have hnot : ¬('\n' = '\r' ∧ (joinNL (y :: r)).head? = some '\n') := by
        rintro ⟨h, -⟩
        exact absurd h (by decide)
      rw [splitAux_break hn (x.reverse ++ []) (joinNL (y :: r)) hnot]
      rw [ih (by simp) (fun a ha => hx a (List.mem_cons_of_mem _ ha))]
      simp

/-! ### How `strip` interacts with `splitlines`

Stripping a text only removes whitespace-only lines at the two ends and
whitespace at the edge of the outermost lines, so every line of the
stripped text strips to the empty line or to the strip of a line of the
original text. -/

theorem splitAux_seg_chars : ∀ n, ∀ l : List Char, l.length ≤ n → ∀ acc,
    (∀ c ∈ acc, isLineBreak c = false) →
    ∀ x ∈ splitAux acc l, ∀ ch ∈ x, isLineBreak ch = false ∧ (ch ∈ acc ∨ ch ∈ l) := by
  intro n
  induction n with
  | zero =>
    intro l hl acc hacc x hx ch hch
    rw [List.length_eq_zero.mp (Nat.le_zero.mp hl), splitAux_nil_eq] at hx
    by_cases he : acc.isEmpty
    · rw [if_pos he] at hx
      cases hx
    · rw [if_neg he] at hx
      rcases List.mem_singleton.mp hx with rfl
      have : ch ∈ acc := List.mem_reverse.mp hch
      exact ⟨hacc ch this, Or.inl this⟩
  | succ n ih =>
    intro l hl acc hacc x hx ch hch
    cases l with
    | nil =>
      rw [splitAux_nil_eq] at hx
      by_cases he : acc.isEmpty
      · rw [if_pos he] at hx
        cases hx
      · rw [if_neg he] at hx
        rcases List.mem_singleton.mp hx with rfl
        have : ch ∈ acc := List.mem_reverse.mp hch
        exact ⟨hacc ch this, Or.inl this⟩
    | cons c rest =>
      by_cases h1 : c = '\r' ∧ rest.head? = some '\n'
      · rw [splitAux_cons, if_pos h1] at hx
        rcases List.mem_cons.mp hx with rfl | hx
        · have : ch ∈ acc := List.mem_reverse.mp hch
          exact ⟨hacc ch this, Or.inl this⟩
        · have htl : rest.tail.length ≤ n := by
            simp only [List.length_cons] at hl
            have := List.length_tail rest
            omega
          rcases ih rest.tail htl [] (by simp) x hx ch hch with ⟨hbf, hm | hm⟩
          · cases hm
          · exact ⟨hbf, Or.inr (List.mem_cons_of_mem _ (List.mem_of_mem_tail hm))⟩
      · by_cases h2 : isLineBreak c = true
        · rw [splitAux_break h2 acc rest h1] at hx
          rcases List.mem_cons.mp hx with rfl | hx
          · have : ch ∈ acc := List.mem_reverse.mp hch
            exact ⟨hacc ch this, Or.inl this⟩
          · have hrl : rest.length ≤ n := by
              simp only [List.length_cons] at hl
              omega
            rcases ih rest hrl [] (by simp) x hx ch hch with ⟨hbf, hm | hm⟩
            · cases hm
            · exact ⟨hbf, Or.inr (List.mem_cons_of_mem _ hm)⟩
        · have h2' : isLineBreak c = false := by simpa using h2
          rw [splitAux_nonbreak h2'] at hx
          have hrl : rest.length ≤ n := by
            simp only [List.length_cons] at hl
            omega
          have hacc' : ∀ a ∈ c :: acc, isLineBreak a = false := by
            intro a ha
            rcases List.mem_cons.mp ha with rfl | ha
            · exact h2'
            · exact hacc a ha
          rcases ih rest hrl (c :: acc) hacc' x hx ch hch with ⟨hbf, hm | hm⟩
          · rcases List.mem_cons.mp hm with rfl | hm
            · exact ⟨hbf, Or.inr (List.mem_cons_self _ _)⟩
            · exact ⟨hbf, Or.inl hm⟩
          · exact ⟨hbf, Or.inr (List.mem_cons_of_mem _ hm)⟩

/-- Every segment of a whole text is break-free. -/
theorem splitAux_seg_breakfree {l : List Char} :
    ∀ x ∈ splitAux [] l, ∀ ch ∈ x, isLineBreak ch = false := by
  intro x hx ch hch
  exact (splitAux_seg_chars l.length l le_rfl [] (by simp) x hx ch hch).1

/-- Every character of a segment of a text is a character of the text. -/
theorem splitAux_seg_subset {l : List Char} :
    ∀ x ∈ splitAux [] l, ∀ ch ∈ x, ch ∈ l := by
  intro x hx ch hch
  rcases (splitAux_seg_chars l.length l le_rfl [] (by simp) x hx ch hch).2 with h | h
  · cases h
  · exact h

/-- One leading whitespace character can be absorbed: each line of the
tail is a line of the extended text up to stripping. -/
theorem splitAux_lift_space {c : Char} (hc : pyIsSpace c = true) (rest : List Char) :
    ∀ y ∈ splitAux [] rest, ∃ z ∈ splitAux [] (c :: rest), pyStripL y = pyStripL z := by
  intro y hy
  by_cases hbr : isLineBreak c = true
  · by_cases h1 : c = '\r' ∧ rest.head? = some '\n'
    · rcases h1 with ⟨rfl, hhd⟩
      cases rest with
      | nil => cases hhd
      | cons d r2 =>
        have hd : d = '\n' := by simpa using hhd
        subst hd
        rw [splitAux_crlf]
        have hrest : splitAux [] ('\n' :: r2) = [] :: splitAux [] r2 := by
          have : ¬('\n' = '\r' ∧ r2.head? = some '\n') := by
            rintro ⟨h, -⟩
            exact absurd h (by decide)
          exact splitAux_break (by decide) [] r2 this
        rw [hrest] at hy
        exact ⟨y, by simpa using hy, rfl⟩
    · rw [splitAux_break hbr [] rest h1]
      exact ⟨y, List.mem_cons_of_mem _ hy, rfl⟩
  · have hbr' : isLineBreak c = false := by simpa using hbr
    rw [splitAux_nonbreak hbr', splitAux_acc [c] rest]
    cases hs : splitAux [] rest with
    | nil =>
      rw [hs] at hy
      cases hy
    | cons s ss =>
      rw [hs] at hy
      rcases List.mem_cons.mp hy with rfl | hy
      · refine ⟨c :: y, ?_, (pyStripL_cons_space hc y).symm⟩
        simp [prependAcc]
      · exact ⟨y, by simp [prependAcc, hy], rfl⟩

/-- Lines of `l.dropWhile pyIsSpace` strip to strips of lines of `l`. -/
theorem splitAux_dropWhile_strip : ∀ l : List Char,
    ∀ x ∈ splitAux [] (l.dropWhile pyIsSpace),
      ∃ y ∈ splitAux [] l, pyStripL x = pyStripL y := by
  intro l
  induction l with
  | nil =>
    intro x hx
    exact ⟨x, hx, rfl⟩
  | cons c rest ih =>
    intro x hx
    by_cases hc : pyIsSpace c = true
    · rw [List.dropWhile_cons, if_pos hc] at hx
      rcases ih x hx with ⟨y, hy, hxy⟩
      rcases splitAux_lift_space hc rest y hy with ⟨z, hz, hyz⟩
      exact ⟨z, hz, hxy.trans hyz⟩
    · rw [List.dropWhile_cons, if_neg hc] at hx
      exact ⟨x, hx, rfl⟩

theorem SegTrim.mem_strip : ∀ {A B : List (List Char)}, SegTrim A B →
    ∀ x ∈ A, pyStripL x = [] ∨ ∃ y ∈ B, pyStripL x = pyStripL y := by
  intro A B h
  induction h with
  | allSpace B h =>
    intro x hx
    cases hx
  | last b B h hb =>
    intro x hx
    rcases List.mem_singleton.mp hx with rfl
    right
    refine ⟨b, List.mem_cons_self _ _, ?_⟩
    unfold pyStripL
    rw [dropTrailing_idem]
  | cons s h ih =>
    intro x hx
    rcases List.mem_cons.mp hx with rfl | hx
    · exact Or.inr ⟨x, List.mem_cons_self _ _, rfl⟩
    · rcases ih x hx with h1 | ⟨y, hy, hxy⟩
      · exact Or.inl h1
      · exact Or.inr ⟨y, List.mem_cons_of_mem _ hy, hxy⟩

/-- If `dropTrailing l` is non-empty it keeps the head of `l`. -/
theorem dropTrailing_cons_head {c : Char} {l : List Char}
    (h : dropTrailing (c :: l) ≠ []) :
    dropTrailing (c :: l) = c :: dropTrailing l := by
  rcases dropTrailing_head_cases c l with h1 | h1
  · exact absurd h1 h
  · exact h1

/-- The segments of `dropTrailing l` are those of `l` up to `SegTrim`. -/
theorem splitAux_nil_nil : splitAux [] ([] : List Char) = [] := by
  simp [splitAux_nil_eq]

theorem segTrim_dropTrailing : ∀ n, ∀ l : List Char, l.length ≤ n →
    SegTrim (splitAux [] (dropTrailing l)) (splitAux [] l) := by
  intro n
  induction n with
  | zero =>
    intro l hl
    rw [List.length_eq_zero.mp (Nat.le_zero.mp hl)]
    rw [show dropTrailing ([] : List Char) = [] from rfl, splitAux_nil_nil]
    exact SegTrim.allSpace [] (by intro x hx; cases hx)
  | succ n ih =>
    intro l hl
    cases l with
    | nil =>
      rw [show dropTrailing ([] : List Char) = [] from rfl, splitAux_nil_nil]
      exact SegTrim.allSpace [] (by intro x hx; cases hx)
    | cons c rest =>
      by_cases h0 : dropTrailing (c :: rest) = []
      · rw [h0, splitAux_nil_nil]
        apply SegTrim.allSpace
        intro x hx ch hch
        have hall := (dropTrailing_eq_nil_iff (c :: rest)).mp h0
        exact hall ch (splitAux_seg_subset x hx ch hch)
      · have hdc : dropTrailing (c :: rest) = c :: dropTrailing rest :=
          dropTrailing_cons_head h0
        by_cases hrest0 : dropTrailing rest = []
        · -- the tail of the text is all whitespace; the head char survives
          have hcs : pyIsSpace c = false := by
            by_contra hcc
            have hcc' : pyIsSpace c = true := by simpa using hcc
            apply h0
            simp only [dropTrailing, hrest0, if_pos hcc']
          have hcs' : ¬pyIsSpace c = true := by simp [hcs]
          have hcb : isLineBreak c = false := by
            by_contra hb
            have : pyIsSpace c = true := pyIsSpace_of_break (by simpa using hb)
            rw [this] at hcs
            cases hcs
          rw [hdc, hrest0]
          have hleft : splitAux [] [c] = [[c]] := by
            rw [splitAux_nonbreak hcb, splitAux_nil_eq]
            simp
          rw [hleft, splitAux_nonbreak hcb [] rest, splitAux_acc [c] rest]
          have hallsp : ∀ a ∈ rest, pyIsSpace a = true :=
            (dropTrailing_eq_nil_iff rest).mp hrest0
          cases hs : splitAux [] rest with
          | nil =>
            simp only [prependAcc, List.isEmpty_cons, List.reverse_cons,
              List.reverse_nil, List.nil_append]
            exact SegTrim.cons [c] (SegTrim.allSpace [] (by intro x hx; cases hx))
          | cons s ss =>
            simp only [prependAcc, List.reverse_cons, List.reverse_nil,
              List.nil_append, List.singleton_append]
            have hs0 : dropTrailing s = [] := by
              apply (dropTrailing_eq_nil_iff s).mpr
              intro a ha
              exact hallsp a (splitAux_seg_subset s (hs ▸ List.mem_cons_self s ss) a ha)
            have hdt : dropTrailing (c :: s) = [c] := by
              simp only [dropTrailing, hs0, if_neg hcs']
            have hssp : ∀ x ∈ ss, ∀ a ∈ x, pyIsSpace a = true := by
              intro x hx a ha
              exact hallsp a (splitAux_seg_subset x (hs ▸ List.mem_cons_of_mem s hx) a ha)
            have := SegTrim.last (c :: s) ss hssp (by simp [hdt])
            rwa [hdt] at this
        · -- the strip reaches only the tail of the text
          cases rest with
          | nil => exact absurd rfl hrest0
          | cons d rest1 =>
            have hdr1 : dropTrailing (d :: rest1) = d :: dropTrailing rest1 :=
              dropTrailing_cons_head hrest0
            by_cases h1 : c = '\r' ∧ d = '\n'
            · rcases h1 with ⟨rfl, rfl⟩
              have hdt1 : dropTrailing rest1 ≠ [] := by
                intro hz
                apply hrest0
                apply (dropTrailing_eq_nil_iff _).mpr
                intro a ha
                rcases List.mem_cons.mp ha with rfl | ha
                · decide
                · exact (dropTrailing_eq_nil_iff rest1).mp hz a ha
              rw [hdc, hdr1, splitAux_crlf, splitAux_crlf]
              apply SegTrim.cons
              apply ih
              simp only [List.length_cons] at hl ⊢
              omega
            · by_cases h2 : isLineBreak c = true
              · have hnot1 : ¬(c = '\r' ∧ (dropTrailing (d :: rest1)).head? = some '\n') := by
                  rintro ⟨rfl, hhd⟩
                  rw [hdr1] at hhd
                  simp only [List.head?_cons, Option.some.injEq] at hhd
                  exact h1 ⟨rfl, hhd⟩
                have hnot2 : ¬(c = '\r' ∧ (d :: rest1).head? = some '\n') := by
                  rintro ⟨rfl, hhd⟩
                  simp only [List.head?_cons, Option.some.injEq] at hhd
                  exact h1 ⟨rfl, hhd⟩
                rw [hdc, splitAux_break h2 [] (dropTrailing (d :: rest1)) hnot1,
                  splitAux_break h2 [] (d :: rest1) hnot2]
                apply SegTrim.cons
                apply ih
                simp only [List.length_cons] at hl ⊢
                omega
              · have h2' : isLineBreak c = false := by simpa using h2
                rw [hdc, splitAux_nonbreak h2', splitAux_nonbreak h2',
                  splitAux_acc [c] (dropTrailing (d :: rest1)), splitAux_acc [c] (d :: rest1)]
                have hih : SegTrim (splitAux [] (dropTrailing (d :: rest1)))
                    (splitAux [] (d :: rest1)) := by
                  apply ih
                  simp only [List.length_cons] at hl ⊢
                  omega
                have hlne : splitAux [] (dropTrailing (d :: rest1)) ≠ [] :=
                  splitAux_ne_nil (dropTrailing (d :: rest1)) [] (Or.inr hrest0)
                generalize hA : splitAux [] (dropTrailing (d :: rest1)) = A at hih hlne ⊢
                generalize hB : splitAux [] (d :: rest1) = B at hih ⊢
                cases hih with
                | allSpace B hsp => exact absurd rfl hlne
                | last b B hsp hb =>
                  simp only [prependAcc, List.reverse_cons, List.reverse_nil,
                    List.nil_append, List.singleton_append]
                  have hdtb : dropTrailing (c :: b) = c :: dropTrailing b :=
                    dropTrailing_cons_of_ne_nil c hb
                  have := SegTrim.last (c :: b) B hsp (by simp [hdtb])
                  rwa [hdtb] at this
                | cons s h =>
                  simp only [prependAcc, List.reverse_cons, List.reverse_nil,
                    List.nil_append, List.singleton_append]
                  exact SegTrim.cons _ h

/-- Every line of `pyStripL t` strips to the empty line or to the strip
of a line of `t`. -/
theorem pyStripL_lines (t : List Char) :
    ∀ x ∈ splitAux [] (pyStripL t),
      pyStripL x = [] ∨ ∃ y ∈ splitAux [] t, pyStripL x = pyStripL y := by
  intro x hx
  unfold pyStripL at hx
  rcases splitAux_dropWhile_strip (dropTrailing t) x hx with ⟨y, hy, hxy⟩
  rcases (segTrim_dropTrailing t.length t le_rfl).mem_strip y hy with h1 | ⟨z, hz, hyz⟩
  · exact Or.inl (hxy.trans h1)
  · exact Or.inr ⟨z, hz, hxy.trans hyz⟩

theorem cleanFold_dropped {ln : List Char} (h : lineDropped ln = true)
    (acc : List (List Char)) : cleanFold acc ln = acc := by
  simp [cleanFold, h]

theorem cleanFold_dup {ln : List Char} {acc : List (List Char)}
    (h : lineDropped ln = false) (hd : acc.head? = some ln) :
    cleanFold acc ln = acc := by
  simp [cleanFold, h, hd]

theorem cleanFold_keep {ln : List Char} {acc : List (List Char)}
    (h : lineDropped ln = false) (hd : acc.head? ≠ some ln) :
    cleanFold acc ln = ln :: acc := by
  simp [cleanFold, h, hd]

/-- Elements produced by the cleaning fold come from the accumulator or
from the input lines. -/
theorem foldl_cleanFold_mem : ∀ (L : List (List Char)) (acc : List (List Char)),
    ∀ x ∈ L.foldl cleanFold acc,
    x ∈ acc ∨ x ∈ L := by
  intro L
  induction L with
  | nil =>
    intro acc x hx
    exact Or.inl hx
  | cons ln L ih =>
    intro acc x hx
    rw [List.foldl_cons] at hx
    rcases ih (cleanFold acc ln) x hx with h | h
    · unfold cleanFold at h
      split at h
      · exact Or.inl h
      · split at h
        · exact Or.inl h
        · rcases List.mem_cons.mp h with rfl | h
          · exact Or.inr (List.mem_cons_self _ _)
          · exact Or.inl h
    · exact Or.inr (List.mem_cons_of_mem _ h)

/-- The cleaning fold preserves "all kept lines pass the filters and no
two adjacent kept lines are equal". -/
theorem foldl_cleanFold_invariant : ∀ (L acc : List (List Char)),
    (∀ x ∈ acc, lineDropped x = false) → acc.Chain' (· ≠ ·) →
    (∀ x ∈ L.foldl cleanFold acc, lineDropped x = false) ∧
      (L.foldl cleanFold acc).Chain' (· ≠ ·) := by
  intro L
  induction L with
  | nil =>
    intro acc h1 h2
    exact ⟨h1, h2⟩
  | cons ln L ih =>
    intro acc h1 h2
    rw [List.foldl_cons]
    by_cases hd : lineDropped ln = true
    · rw [cleanFold_dropped hd]
      exact ih acc h1 h2
    · have hd' : lineDropped ln = false := by simpa using hd
      by_cases hhd : acc.head? = some ln
      · rw [cleanFold_dup hd' hhd]
        exact ih acc h1 h2
      · rw [cleanFold_keep hd' hhd]
        apply ih
        · intro x hx
          rcases List.mem_cons.mp hx with rfl | hx
          · exact hd'
          · exact h1 x hx
        · rw [List.chain'_cons']
          refine ⟨?_, h2⟩
          intro y hy hln
          apply hhd
          rw [Option.mem_def] at hy
          rw [hy, hln]

/-- If every line is dropped the fold keeps nothing. -/
theorem foldl_cleanFold_all_dropped : ∀ L : List (List Char),
    (∀ x ∈ L, lineDropped x = true) → L.foldl cleanFold [] = [] := by
  intro L
  induction L with
  | nil => intro _; rfl
  | cons ln L ih =>
    intro h
    rw [List.foldl_cons, cleanFold_dropped (h ln (List.mem_cons_self _ _))]
    exact ih fun x hx => h x (List.mem_cons_of_mem _ hx)

/-- The fold never shrinks the accumulator. -/
theorem foldl_cleanFold_length : ∀ (L : List (List Char)) (acc : List (List Char)),
    acc.length ≤ (L.foldl cleanFold acc).length := by
  intro L
  induction L with
  | nil => intro acc; exact le_rfl
  | cons ln L ih =>
    intro acc
    rw [List.foldl_cons]
    refine le_trans ?_ (ih (cleanFold acc ln))
    unfold cleanFold
    split
    · exact le_rfl
    · split
      · exact le_rfl
      · simp

/-- Conversely, an empty fold result means every line was dropped. -/
theorem foldl_cleanFold_eq_nil : ∀ L : List (List Char),
    L.foldl cleanFold [] = [] → ∀ x ∈ L, lineDropped x = true := by
  intro L
  induction L with
  | nil =>
    intro _ x hx
    cases hx
  | cons ln L ih =>
    intro h x hx
    rw [List.foldl_cons] at h
    by_cases hd : lineDropped ln = true
    · rcases List.mem_cons.mp hx with rfl | hx
      · exact hd
      · rw [cleanFold_dropped hd] at h
        exact ih h x hx
    · exfalso
      have hd' : lineDropped ln = false := by simpa using hd
      have : cleanFold [] ln = [ln] := cleanFold_keep hd' (by simp)
      rw [this] at h
      have := foldl_cleanFold_length L [ln]
      rw [h] at this
      simp at this

/-- On a list of kept lines (none dropped, no adjacent duplicates) the
fold keeps everything, in reverse. -/
theorem foldl_cleanFold_all_kept : ∀ (C acc : List (List Char)),
    (∀ x ∈ C, lineDropped x = false) → C.Chain' (· ≠ ·) →
    (∀ h, C.head? = some h → acc.head? ≠ some h) →
    C.foldl cleanFold acc = C.reverse ++ acc := by
  intro C
  induction C with
  | nil =>
    intro acc _ _ _
    simp
  | cons c cs ih =>
    intro acc h1 h2 h3
    have h4 : ∀ h, cs.head? = some h → (c :: acc).head? ≠ some h := by
      intro h hh
      rw [List.head?_cons]
      intro hc
      have hch := (List.chain'_cons'.mp h2).1 h (by rw [Option.mem_def, hh])
      exact hch (Option.some.inj hc)
    rw [List.foldl_cons, cleanFold_keep (h1 c (List.mem_cons_self _ _))
      (h3 c (by simp))]
    rw [ih (c :: acc) (fun x hx => h1 x (List.mem_cons_of_mem _ hx))
      (List.Chain'.tail h2) h4]
    simp

theorem cleanLinesL_eq (t : List Char) : cleanLinesL t =
    if ((((splitAux [] t).map pyStripL).foldl cleanFold []).reverse).isEmpty
    then pyStripL t
    else joinNL ((((splitAux [] t).map pyStripL).foldl cleanFold []).reverse) := rfl

theorem lineDropped_nil : lineDropped [] = true := by decide

theorem ne_nil_of_not_dropped {x : List Char} (h : lineDropped x = false) :
    x ≠ [] := by
  intro h0
  subst h0
  rw [lineDropped_nil] at h
  cases h

theorem joinNL_ne_nil : ∀ C : List (List Char), C ≠ [] → (∀ x ∈ C, x ≠ []) →
    joinNL C ≠ [] := by
  intro C hC hx
  cases C with
  | nil => exact absurd rfl hC
  | cons x C =>
    cases C with
    | nil => exact hx x (List.mem_cons_self _ _)
    | cons y r =>
      show x ++ '\n' :: joinNL (y :: r) ≠ []
      intro h
      rcases List.append_eq_nil.mp h with ⟨-, h2⟩
      cases h2

/-- Fallback case: if the strip of `t` is what `clean_lines` returns,
cleaning it again returns it unchanged. -/
theorem cleanLinesL_strip_fixed {t : List Char}
    (hdrop : ∀ x ∈ splitAux [] t, lineDropped (pyStripL x) = true) :
    cleanLinesL (pyStripL t) = pyStripL t := by
  have hdrop' : ∀ x ∈ splitAux [] (pyStripL t), lineDropped (pyStripL x) = true := by
    intro x hx
    rcases pyStripL_lines t x hx with h | ⟨y, hy, hxy⟩
    · rw [h, lineDropped_nil]
    · rw [hxy]
      exact hdrop y hy
  have hL : ∀ z ∈ (splitAux [] (pyStripL t)).map pyStripL, lineDropped z = true := by
    intro z hz
    rcases List.mem_map.mp hz with ⟨x, hx, rfl⟩
    exact hdrop' x hx
  rw [cleanLinesL_eq, foldl_cleanFold_all_dropped _ hL]
  simp only [List.reverse_nil, List.isEmpty_nil, if_pos]
  exact pyStripL_idem t

theorem cleanLinesL_idem (t : List Char) :
    cleanLinesL (cleanLinesL t) = cleanLinesL t := by
  cases hF : ((splitAux [] t).map pyStripL).foldl cleanFold [] with
  | nil =>
    have ht : cleanLinesL t = pyStripL t := by
      rw [cleanLinesL_eq, hF]
      simp
    rw [ht]
    apply cleanLinesL_strip_fixed
    intro x hx
    apply foldl_cleanFold_eq_nil _ hF
    exact List.mem_map_of_mem pyStripL hx
  | cons f fs =>
    have hinv := foldl_cleanFold_invariant ((splitAux [] t).map pyStripL) []
      (by intro x hx; cases hx) (by simp)
    rw [hF] at hinv
    set F := f :: fs with hFdef
    set cleaned := F.reverse with hcl
    have hclne : cleaned ≠ [] := by
      simp [hcl, hFdef]
    have hmemL : ∀ x ∈ cleaned, ∃ y ∈ splitAux [] t, x = pyStripL y := by
      intro x hx
      rw [hcl, List.mem_reverse] at hx
      have := foldl_cleanFold_mem ((splitAux [] t).map pyStripL) [] x (hF ▸ hx)
      rcases this with h | h
      · cases h
      · rcases List.mem_map.mp h with ⟨y, hy, hyx⟩
        exact ⟨y, hy, hyx.symm⟩
    have hstripped : ∀ x ∈ cleaned, pyStripL x = x := by
      intro x hx
      rcases hmemL x hx with ⟨y, hy, rfl⟩
      exact pyStripL_idem y
    have hbf : ∀ x ∈ cleaned, ∀ c ∈ x, isLineBreak c = false := by
      intro x hx c hc
      rcases hmemL x hx with ⟨y, hy, rfl⟩
      exact splitAux_seg_breakfree y hy c (pyStripL_subset y c hc)
    have hnotdropped : ∀ x ∈ cleaned, lineDropped x = false := by
      intro x hx
      rw [hcl, List.mem_reverse] at hx
      exact hinv.1 x hx
    have hnonempty : ∀ x ∈ cleaned, x ≠ [] := by
      intro x hx
      exact ne_nil_of_not_dropped (hnotdropped x hx)
    have hchain : cleaned.Chain' (· ≠ ·) := by
      rw [hcl]
      apply (List.chain'_reverse).mpr
      exact hinv.2.imp fun a b h => Ne.symm h
    have hv : cleanLinesL t = joinNL cleaned := by
      rw [cleanLinesL_eq, hF]
      rw [if_neg (by simp [hcl, hFdef])]
    rw [hv]
    have hsplit : splitAux [] (joinNL cleaned) = cleaned :=
      splitAux_joinNL cleaned hclne (fun x hx => ⟨hnonempty x hx, hbf x hx⟩)
    rw [cleanLinesL_eq, hsplit]
    have hmap : cleaned.map pyStripL = cleaned := by
      rw [List.map_congr_left hstripped]
      simp
    rw [hmap]
    rw [foldl_cleanFold_all_kept cleaned [] hnotdropped hchain
      (by intro h _; simp)]
    rw [List.append_nil, List.reverse_reverse]
    rw [if_neg (by simpa [List.isEmpty_iff] using hclne)]

theorem cleanLinesL_ne_nil {t : List Char} (h : pyStripL t ≠ []) :
    cleanLinesL t ≠ [] := by
  cases hF : ((splitAux [] t).map pyStripL).foldl cleanFold [] with
  | nil =>
    rw [cleanLinesL_eq, hF]
    simpa using h
  | cons f fs =>
    have hinv := foldl_cleanFold_invariant ((splitAux [] t).map pyStripL) []
      (by intro x hx; cases hx) (by simp)
    rw [hF] at hinv
    rw [cleanLinesL_eq, hF]
    rw [if_neg (by simp)]
    apply joinNL_ne_nil _ (by simp)
    intro x hx
    rw [List.mem_reverse] at hx
    exact ne_nil_of_not_dropped (hinv.1 x hx)

theorem is_allowed_url_iff (u : Url) :
    is_allowed_url u = true ↔
      (u.scheme = "http" ∨ u.scheme = "https") ∧
      (∃ a b : String, u.netloc = a ++ ALLOWED_DOMAIN ++ b) ∧
      (∀ ext ∈ blocked_ext, ¬∃ a : String, pyLower u.path = a ++ ext) := by
  unfold is_allowed_url
  by_cases h1 : u.scheme ≠ "http" ∧ u.scheme ≠ "https"
  · rw [if_pos h1]
    constructor
    · intro hf
      exact Bool.noConfusion hf
    · rintro ⟨hs, -, -⟩
      exfalso
      rcases hs with hs | hs
      · exact h1.1 hs
      · exact h1.2 hs
  · rw [if_neg h1]
    push_neg at h1
    have h1' : u.scheme = "http" ∨ u.scheme = "https" := by
      by_cases hh : u.scheme = "http"
      · exact Or.inl hh
      · exact Or.inr (h1 hh)
    by_cases h2 : occursIn ALLOWED_DOMAIN u.netloc = false
    · rw [if_pos h2]
      constructor
      · intro hf
        exact Bool.noConfusion hf
      · rintro ⟨-, hdom, -⟩
        exfalso
        rw [(occursIn_iff _ _).mpr hdom] at h2
        cases h2
    · rw [if_neg h2]
      have h2' : occursIn ALLOWED_DOMAIN u.netloc = true := by
        simpa using h2
      by_cases h3 : blocked_ext.any (fun ext => strEndsWith (pyLower u.path) ext) = true
      · rw [if_pos h3]
        constructor
        · intro hf
          exact Bool.noConfusion hf
        · rintro ⟨-, -, hext⟩
          exfalso
          rcases List.any_eq_true.mp h3 with ⟨ext, hmem, hend⟩
          exact hext ext hmem ((strEndsWith_iff _ _).mp hend)
      · rw [if_neg h3]
        constructor
        · intro _
          refine ⟨h1', (occursIn_iff _ _).mp h2', ?_⟩
          intro ext hmem hex
          apply h3
          apply List.any_eq_true.mpr
          exact ⟨ext, hmem, (strEndsWith_iff _ _).mpr hex⟩
        · intro _
          rfl

theorem crawlLoop_nil (env : CrawlEnv) (cfg : CrawlConfig) (visited : List String)
    (count : Nat) (records : List PageRecord) (iters : Nat) (fetched : List String) :
    crawlLoop env cfg [] visited count records iters fetched =
      ⟨visited, count, records, iters, fetched⟩ := by
  rw [crawlLoop]

theorem crawlLoop_maxed {env : CrawlEnv} {cfg : CrawlConfig} {count : Nat}
    (h : ¬count < cfg.maxPages) (url : String) (depth : Nat)
    (rest : List (String × Nat)) (visited : List String)
    (records : List PageRecord) (iters : Nat) (fetched : List String) :
    crawlLoop env cfg ((url, depth) :: rest) visited count records iters fetched =
      ⟨visited, count, records, iters, fetched⟩ := by
  rw [crawlLoop]
  rw [dif_neg h]

theorem crawlLoop_visited {env : CrawlEnv} {cfg : CrawlConfig} {count : Nat}
    {url : String} {visited : List String}
    (h : count < cfg.maxPages) (hv : url ∈ visited) (depth : Nat)
    (rest : List (String × Nat)) (records : List PageRecord) (iters : Nat)
    (fetched : List String) :
    crawlLoop env cfg ((url, depth) :: rest) visited count records iters fetched =
      crawlLoop env cfg rest visited count records (iters + 1) fetched := by
  rw [crawlLoop]
  rw [dif_pos h, if_pos hv]

theorem crawlLoop_overdepth {env : CrawlEnv} {cfg : CrawlConfig} {count : Nat}
    {url : String} {visited : List String} {depth : Nat}
    (h : count < cfg.maxPages) (hv : url ∉ visited) (hd : cfg.maxDepth < depth)
    (rest : List (String × Nat)) (records : List PageRecord) (iters : Nat)
    (fetched : List String) :
    crawlLoop env cfg ((url, depth) :: rest) visited count records iters fetched =
      crawlLoop env cfg rest (url :: visited) count records (iters + 1) fetched := by
  rw [crawlLoop]
  rw [dif_pos h, if_neg hv, if_pos hd]

theorem crawlLoop_filtered {env : CrawlEnv} {cfg : CrawlConfig} {count : Nat}
    {url : String} {visited : List String} {depth : Nat}
    (h : count < cfg.maxPages) (hv : url ∉ visited) (hd : ¬cfg.maxDepth < depth)
    (ha : env.allowed url = false)
    (rest : List (String × Nat)) (records : List PageRecord) (iters : Nat)
    (fetched : List String) :
    crawlLoop env cfg ((url, depth) :: rest) visited count records iters fetched =
      crawlLoop env cfg rest (url :: visited) count records (iters + 1) fetched := by
  rw [crawlLoop]
  rw [dif_pos h, if_neg hv, if_neg hd, if_pos ha]

theorem crawlLoop_fetchfail {env : CrawlEnv} {cfg : CrawlConfig} {count : Nat}
    {url : String} {visited : List String} {depth : Nat}
    (h : count < cfg.maxPages) (hv : url ∉ visited) (hd : ¬cfg.maxDepth < depth)
    (ha : ¬env.allowed url = false) (hf : env.fetch url = none)
    (rest : List (String × Nat)) (records : List PageRecord) (iters : Nat)
    (fetched : List String) :
    crawlLoop env cfg ((url, depth) :: rest) visited count records iters fetched =
      crawlLoop env cfg rest (url :: visited) count records (iters + 1)
        (fetched ++ [url]) := by
  rw [crawlLoop]
  rw [dif_pos h, if_neg hv, if_neg hd, if_neg ha, hf]

theorem crawlLoop_emptytext {env : CrawlEnv} {cfg : CrawlConfig} {count : Nat}
    {url : String} {visited : List String} {depth : Nat} {html : String}
    (h : count < cfg.maxPages) (hv : url ∉ visited) (hd : ¬cfg.maxDepth < depth)
    (ha : ¬env.allowed url = false) (hf : env.fetch url = some html)
    (he : (env.extractText url html).2 = "")
    (rest : List (String × Nat)) (records : List PageRecord) (iters : Nat)
    (fetched : List String) :
    crawlLoop env cfg ((url, depth) :: rest) visited count records iters fetched =
      crawlLoop env cfg rest (url :: visited) count records (iters + 1)
        (fetched ++ [url]) := by
  rw [crawlLoop]
  rw [dif_pos h, if_neg hv, if_neg hd, if_neg ha, hf]
  simp only [he, if_pos]

theorem crawlLoop_emit {env : CrawlEnv} {cfg : CrawlConfig} {count : Nat}
    {url : String} {visited : List String} {depth : Nat} {html : String}
    (h : count < cfg.maxPages) (hv : url ∉ visited) (hd : ¬cfg.maxDepth < depth)
    (ha : ¬env.allowed url = false) (hf : env.fetch url = some html)
    (he : ¬(env.extractText url html).2 = "")
    (rest : List (String × Nat)) (records : List PageRecord) (iters : Nat)
    (fetched : List String) :
    crawlLoop env cfg ((url, depth) :: rest) visited count records iters fetched =
      crawlLoop env cfg
        (rest ++ (((env.extractLinks url html).filter
          (fun l => l ∉ url :: visited)).map (fun l => (l, depth + 1))))
        (url :: visited) (count + 1)
        (records ++ [⟨url, (env.extractText url html).1, depth,
          (env.extractText url html).2, env.textHash (env.extractText url html).2⟩])
        (iters + 1) (fetched ++ [url]) := by
  rw [crawlLoop]
  rw [dif_pos h, if_neg hv, if_neg hd, if_neg ha, hf]
  simp only [if_neg he]

theorem nodup_append_singleton {l : List String} {a : String}
    (hl : l.Nodup) (ha : a ∉ l) : (l ++ [a]).Nodup := by
  rw [List.nodup_append]
  refine ⟨hl, List.nodup_singleton a, ?_⟩
  intro x hx hxa
  rcases List.mem_singleton.mp hxa with rfl
  exact ha hx

/-- Main loop invariant: the emitted records have pairwise distinct URLs
drawn from the visited set, their number equals the page counter, the
counter stays at or below the page budget, and no record exceeds the
depth budget. -/
theorem crawlLoop_main_inv (env : CrawlEnv) (cfg : CrawlConfig) :
    ∀ (queue : List (String × Nat)) (visited : List String) (count : Nat)
      (records : List PageRecord) (iters : Nat) (fetched : List String),
      (records.map PageRecord.url).Nodup →
      (∀ r ∈ records, r.url ∈ visited) →
      records.length = count →
      count ≤ cfg.maxPages →
      (∀ r ∈ records, r.depth ≤ cfg.maxDepth) →
      (((crawlLoop env cfg queue visited count records iters fetched).records.map
          PageRecord.url).Nodup ∧
       (crawlLoop env cfg queue visited count records iters fetched).records.length =
         (crawlLoop env cfg queue visited count records iters fetched).pageCount ∧
       (crawlLoop env cfg queue visited count records iters fetched).pageCount ≤
         cfg.maxPages ∧
       (∀ r ∈ (crawlLoop env cfg queue visited count records iters fetched).records,
         r.depth ≤ cfg.maxDepth)) := by
  intro queue visited count records iters fetched
  induction queue, visited, count, records, iters, fetched using crawlLoop.induct env cfg with
  | case1 visited count records iters fetched =>
    intro h1 h2 h3 h4 h5
    rw [crawlLoop_nil]
    exact ⟨h1, h3, h4, h5⟩
  | case2 visited count records iters fetched url depth rest h hv ih =>
    intro h1 h2 h3 h4 h5
    rw [crawlLoop_visited h hv]
    exact ih h1 h2 h3 h4 h5
  | case3 visited count records iters fetched url depth rest h hv hd ih =>
    intro h1 h2 h3 h4 h5
    rw [crawlLoop_overdepth h hv hd]
    exact ih h1 (fun r hr => List.mem_cons_of_mem _ (h2 r hr)) h3 h4 h5
  | case4 visited count records iters fetched url depth rest h hv hd ha ih =>
    intro h1 h2 h3 h4 h5
    rw [crawlLoop_filtered h hv hd ha]
    exact ih h1 (fun r hr => List.mem_cons_of_mem _ (h2 r hr)) h3 h4 h5
  | case5 visited count records iters fetched url depth rest h hv hd ha hf ih =>
    intro h1 h2 h3 h4 h5
    rw [crawlLoop_fetchfail h hv hd ha hf]
    exact ih h1 (fun r hr => List.mem_cons_of_mem _ (h2 r hr)) h3 h4 h5
  | case6 visited count records iters fetched url depth rest h hv hd ha html hf td he ih =>
    intro h1 h2 h3 h4 h5
    rw [crawlLoop_emptytext h hv hd ha hf he]
    exact ih h1 (fun r hr => List.mem_cons_of_mem _ (h2 r hr)) h3 h4 h5
  | case7 visited count records iters fetched url depth rest h hv hd ha html hf td he record links ih =>
    intro h1 h2 h3 h4 h5
    rw [crawlLoop_emit h hv hd ha hf he]
    apply ih
    · rw [List.map_append]
      apply nodup_append_singleton h1
      intro hmem
      rcases List.mem_map.mp hmem with ⟨r, hr, hurl⟩
      have hru : r.url = url := hurl
      exact hv (hru ▸ h2 r hr)
    · intro r hr
      rcases List.mem_append.mp hr with hr | hr
      · exact List.mem_cons_of_mem _ (h2 r hr)
      · rcases List.mem_singleton.mp hr with rfl
        exact List.mem_cons_self _ _
    · rw [List.length_append, h3]
      rfl
    · omega
    · intro r hr
      rcases List.mem_append.mp hr with hr | hr
      · exact h5 r hr
      · rcases List.mem_singleton.mp hr with rfl
        exact Nat.le_of_not_lt hd
  | case8 visited count records iters fetched url depth rest h =>
    intro h1 h2 h3 h4 h5
    rw [crawlLoop_maxed h]
    exact ⟨h1, h3, h4, h5⟩

/-- Quantitative termination: when every page yields at most `L` links,
the loop performs at most `queue.length + (budget left) * L` more
iterations. -/
theorem crawlLoop_iterations (env : CrawlEnv) (cfg : CrawlConfig) (L : Nat)
    (hL : ∀ u h, (env.extractLinks u h).length ≤ L) :
    ∀ (queue : List (String × Nat)) (visited : List String) (count : Nat)
      (records : List PageRecord) (iters : Nat) (fetched : List String),
      (crawlLoop env cfg queue visited count records iters fetched).iterations ≤
        iters + queue.length + (cfg.maxPages - count) * L := by
  intro queue visited count records iters fetched
  induction queue, visited, count, records, iters, fetched using crawlLoop.induct env cfg with
  | case1 visited count records iters fetched =>
    rw [crawlLoop_nil]
    simp
  | case2 visited count records iters fetched url depth rest h hv ih =>
    rw [crawlLoop_visited h hv]
    refine le_trans ih ?_
    simp only [List.length_cons]
    generalize (cfg.maxPages - count) * L = X
    omega
  | case3 visited count records iters fetched url depth rest h hv hd ih =>
    rw [crawlLoop_overdepth h hv hd]
    refine le_trans ih ?_
    simp only [List.length_cons]
    generalize (cfg.maxPages - count) * L = X
    omega
  | case4 visited count records iters fetched url depth rest h hv hd ha ih =>
    rw [crawlLoop_filtered h hv hd ha]
    refine le_trans ih ?_
    simp only [List.length_cons]
    generalize (cfg.maxPages - count) * L = X
    omega
  | case5 visited count records iters fetched url depth rest h hv hd ha hf ih =>
    rw [crawlLoop_fetchfail h hv hd ha hf]
    refine le_trans ih ?_
    simp only [List.length_cons]
    generalize (cfg.maxPages - count) * L = X
    omega
  | case6 visited count records iters fetched url depth rest h hv hd ha html hf td he ih =>
    rw [crawlLoop_emptytext h hv hd ha hf he]
    refine le_trans ih ?_
    simp only [List.length_cons]
    generalize (cfg.maxPages - count) * L = X
    omega
  | case7 visited count records iters fetched url depth rest h hv hd ha html hf td he record links ih =>
    rw [crawlLoop_emit h hv hd ha hf he]
    refine le_trans ih ?_
    have hlinks : links.length ≤ L :=
      le_trans (List.length_filter_le _ _) (hL url html)
    have hlen : (rest ++ List.map (fun l => (l, depth + 1)) links).length
        = rest.length + links.length := by
      rw [List.length_append, List.length_map]
    have hkey : (cfg.maxPages - count) * L = (cfg.maxPages - (count + 1)) * L + L := by
      have hs : cfg.maxPages - count = (cfg.maxPages - (count + 1)) + 1 := by omega
      rw [hs, Nat.succ_mul]
    rw [hlen, hkey]
    simp only [List.length_cons]
    generalize (cfg.maxPages - (count + 1)) * L = X
    omega
  | case8 visited count records iters fetched url depth rest h =>
    rw [crawlLoop_maxed h]
    exact le_trans (Nat.le_add_right _ _) (Nat.le_add_right _ _)

/-- When the question mentions neither teacher marker, the subject loop
finds nothing regardless of the directory contents. -/
theorem subjectAnswer_none {q : String}
    (h : (occursIn "교사" q || occursIn "선생" q) = false) :
    ∀ (sm : List (String × String)) (teachers : List Teacher),
      subjectAnswer sm teachers q = none := by
  intro sm
  induction sm with
  | nil =>
    intro teachers
    rfl
  | cons p rest ih =>
    intro teachers
    obtain ⟨kw, subj⟩ := p
    rw [subjectAnswer, h]
    simp only [Bool.and_false, Bool.false_eq_true, if_false]
    exact ih teachers

/-- Evaluation of `answer_from_staff_db` on the fixed homeroom query:
both regular expressions and all textual gates are decided concretely,
leaving only the directory lookup. -/
theorem answer_q0 (db : StaffDb) :
    answer_from_staff_db_q db "1학년 3반 담임" =
      some (match db.teachers.find? (fun t => t.homeroom == some "1-3") with
            | some t => "1학년 3반 담임은 " ++ t.name ++ " 선생님입니다."
            | none => "1학년 3반 담임 정보는 데이터에 없습니다.") := by
  have hsub : subjectAnswer subject_map db.teachers "1학년 3반 담임" = none :=
    subjectAnswer_none (by decide) subject_map db.teachers
  have hfind : findGradeClass1 ("1학년 3반 담임" : String).data = some ('1', '3') := by
    decide
  have hdam : occursIn "담임" "1학년 3반 담임" = true := by decide
  have e1 : ('1' : Char).toString = "1" := rfl
  have e3 : ('3' : Char).toString = "3" := rfl
  have mc1 : ("1" ++ "-" : String) = "1-" := by decide
  have mc2 : ("1-" ++ "3" : String) = "1-3" := by decide
  have m1 : ("1" ++ "학년 " : String) = "1학년 " := by decide
  have m2 : ("1학년 " ++ "3" : String) = "1학년 3" := by decide
  have m3 : ("1학년 3" ++ "반 담임은 " : String) = "1학년 3반 담임은 " := by decide
  have m4 : ("1학년 3" ++ "반 담임 정보는 데이터에 없습니다." : String) =
      "1학년 3반 담임 정보는 데이터에 없습니다." := by decide
  simp only [answer_from_staff_db_q, hsub, hfind, Option.orElse, hdam,
    e1, e3, mc1, mc2, m1, m2, m3, m4, if_true]
  cases hf : db.teachers.find? (fun t => t.homeroom == some "1-3") with
  | none => rfl
  | some t => rfl

/-! ### The claims -/

/-- Claim C1 (code bug): seed URLs are *not* exempt from URL filtering in
the crawl loop.  With the crawler's own filter rejecting the single seed
(a `.pdf` URL on the allowed domain), and a fetcher and extractor that
would certainly produce a page record, the run fetches nothing and emits
nothing: the dequeue path applies the URL filter to the seed
(crawler.py line 262) despite the seed-exemption comment at lines 245
and 261. -/
theorem claim_C1_seed_filtered :
    is_allowed_url urlC1 = false ∧
    envC1.fetch "https://ogya-h.gne.go.kr/file.pdf" = some "<html>" ∧
    (envC1.extractText "https://ogya-h.gne.go.kr/file.pdf" "<html>").2 ≠ "" ∧
    (crawl envC1 cfgC1).fetched = [] ∧
    (crawl envC1 cfgC1).records = [] := by
  have hno : is_allowed_url urlC1 = false := by decide
  refine ⟨hno, rfl, by decide, ?_⟩
  have hc : crawl envC1 cfgC1 =
      crawlLoop envC1 cfgC1 [("https://ogya-h.gne.go.kr/file.pdf", 0)] [] 0 [] 0 [] := rfl
  rw [hc, crawlLoop_filtered (by decide) (by simp) (by decide) (by decide),
    crawlLoop_nil]
  exact ⟨rfl, rfl⟩

/-- Claim C2, counterexample: the whitespace-only input `" "` is a
non-empty string on which `clean_lines` returns the empty string — every
line is dropped and the fallback `text.strip()` is itself empty. -/
theorem claim_C2_counterexample :
    clean_lines " " = "" ∧ (" " : String) ≠ "" := by
  constructor
  · show (⟨cleanLinesL (" " : String).data⟩ : String) = ""
    have hs : splitAux [] ((" " : String).data) = [[' ']] := by
      rw [show (" " : String).data = [' '] from rfl, splitAux_cons]
      rw [if_neg (by decide), if_neg (by decide), splitAux_nil_eq]
      decide
    have hz : cleanLinesL ((" " : String).data) = [] := by
      rw [cleanLinesL_eq, hs]
      decide
    exact (congrArg String.mk hz).trans rfl
  · decide

/-- Claim C2, amended: for every input whose *stripped* form is
non-empty (that is, containing at least one non-whitespace character),
`clean_lines` returns a non-empty string; when every line is dropped it
falls back to the stripped original text. -/
theorem claim_C2_nonempty (s : String) (h : pyStrip s ≠ "") :
    clean_lines s ≠ "" := by
  have hd : pyStripL s.data ≠ [] := by
    intro hz
    apply h
    show (⟨pyStripL s.data⟩ : String) = ""
    exact (congrArg String.mk hz).trans rfl
  intro hc
  apply cleanLinesL_ne_nil hd
  have := congrArg String.data hc
  simpa using this

theorem claim_C2_witness :
    pyStrip "창녕옥야고등학교 안내" ≠ "" ∧ clean_lines "창녕옥야고등학교 안내" ≠ "" :=
  ⟨by decide, claim_C2_nonempty "창녕옥야고등학교 안내" (by decide)⟩

/-- Claim C7: `clean_lines` is idempotent — kept lines are already
stripped, pass every filter and contain no adjacent duplicates, so a
second pass keeps them all; and in the fallback case the stripped
original consists of whitespace-trimmed copies of already-dropped lines,
so the second pass falls back again onto the (idempotent) strip. -/
theorem claim_C7_idempotent (s : String) :
    clean_lines (clean_lines s) = clean_lines s := by
  show (⟨cleanLinesL (⟨cleanLinesL s.data⟩ : String).data⟩ : String) = ⟨cleanLinesL s.data⟩
  exact congrArg String.mk (cleanLinesL_idem s.data)

/-- Claim C3: `is_allowed_url` accepts exactly the URLs whose scheme is
http or https, whose netloc contains the configured allowed domain as a
substring, and whose lowercased path ends with none of the fourteen
blocked extensions; in particular a URL without the domain substring is
rejected whatever its scheme and path, and a URL whose lowercased path
ends with a blocked extension is rejected even when the domain
matches. -/
theorem claim_C3_url_filter :
    (∀ u : Url, is_allowed_url u = true ↔
      (u.scheme = "http" ∨ u.scheme = "https") ∧
      (∃ a b : String, u.netloc = a ++ "ogya-h.gne.go.kr" ++ b) ∧
      (∀ ext ∈ [".pdf", ".hwp", ".hwpx", ".xls", ".xlsx", ".doc", ".docx",
        ".ppt", ".pptx", ".jpg", ".jpeg", ".png", ".gif", ".zip"],
        ¬∃ a : String, pyLower u.path = a ++ ext)) ∧
    (∀ u : Url, (¬∃ a b : String, u.netloc = a ++ "ogya-h.gne.go.kr" ++ b) →
      is_allowed_url u = false) ∧
    (∀ u : Url, ∀ ext ∈ [".pdf", ".hwp", ".hwpx", ".xls", ".xlsx", ".doc",
        ".docx", ".ppt", ".pptx", ".jpg", ".jpeg", ".png", ".gif", ".zip"],
      (∃ a : String, pyLower u.path = a ++ ext) → is_allowed_url u = false) := by
  have hiff := is_allowed_url_iff
  have hdom : ALLOWED_DOMAIN = "ogya-h.gne.go.kr" := rfl
  have hext : blocked_ext = [".pdf", ".hwp", ".hwpx", ".xls", ".xlsx", ".doc",
      ".docx", ".ppt", ".pptx", ".jpg", ".jpeg", ".png", ".gif", ".zip"] := rfl
  refine ⟨?_, ?_, ?_⟩
  · intro u
    rw [← hdom, ← hext]
    exact hiff u
  · intro u hno
    cases hu : is_allowed_url u with
    | false => rfl
    | true =>
      exfalso
      apply hno
      rw [← hdom]
      exact ((hiff u).mp hu).2.1
  · intro u ext hmem hend
    cases hu : is_allowed_url u with
    | false => rfl
    | true =>
      exfalso
      exact ((hiff u).mp hu).2.2 ext (hext ▸ hmem) hend

theorem claim_C3_witness :
    is_allowed_url ⟨"https", "example.com", "/index.html"⟩ = false ∧
    is_allowed_url ⟨"https", "www.ogya-h.gne.go.kr", "/docs/File.PDF"⟩ = false := by
  constructor
  · apply claim_C3_url_filter.2.1 ⟨"https", "example.com", "/index.html"⟩
    rintro ⟨a, b, hab⟩
    have ht : occursIn "ogya-h.gne.go.kr" "example.com" = true :=
      (occursIn_iff _ _).mpr ⟨a, b, hab⟩
    have hf : occursIn "ogya-h.gne.go.kr" "example.com" = false := by decide
    rw [ht] at hf
    cases hf
  · exact claim_C3_url_filter.2.2 ⟨"https", "www.ogya-h.gne.go.kr", "/docs/File.PDF"⟩
      ".pdf" (by decide) ⟨"/docs/file", by decide⟩

/-- Claim C4: within one run, no URL is the `url` of two emitted
records — every URL occurs at most once among the record URLs, because a
URL is marked visited before processing and records are only emitted for
unvisited URLs. -/
theorem claim_C4_no_duplicate_url (env : CrawlEnv) (cfg : CrawlConfig) (u : String) :
    ((crawl env cfg).records.map PageRecord.url).count u ≤ 1 := by
  have h := crawlLoop_main_inv env cfg (cfg.startUrls.map (fun x => (x, 0))) [] 0 [] 0 []
    (by simp) (by simp) rfl (Nat.zero_le _) (by simp)
  exact List.nodup_iff_count_le_one.mp h.1 u

/-- Claim C5: the number of emitted records never exceeds the configured
maximum page count, and it equals the accepted-page counter the loop
maintains. -/
theorem claim_C5_page_budget (env : CrawlEnv) (cfg : CrawlConfig) :
    (crawl env cfg).records.length ≤ cfg.maxPages ∧
    (crawl env cfg).records.length = (crawl env cfg).pageCount := by
  have h := crawlLoop_main_inv env cfg (cfg.startUrls.map (fun x => (x, 0))) [] 0 [] 0 []
    (by simp) (by simp) rfl (Nat.zero_le _) (by simp)
  exact ⟨h.2.1.trans_le h.2.2.1, h.2.1⟩

/-- Claim C6: every emitted record's `depth` is at most the configured
maximum depth — a dequeued task whose depth exceeds it is skipped before
fetching. -/
theorem claim_C6_depth_bound (env : CrawlEnv) (cfg : CrawlConfig) :
    (crawl env cfg).records.all (fun r => decide (r.depth ≤ cfg.maxDepth)) = true := by
  have h := crawlLoop_main_inv env cfg (cfg.startUrls.map (fun x => (x, 0))) [] 0 [] 0 []
    (by simp) (by simp) rfl (Nat.zero_le _) (by simp)
  rw [List.all_eq_true]
  intro r hr
  exact decide_eq_true (h.2.2.2 r hr)

/-- Claim C8: the crawl loop always terminates (in this model `crawl` is
a total function, accepted by the termination checker with the measure
`(maxPages - pageCount, queue length)`); quantitatively, when every page
yields at most `L` links the loop runs at most
`|seeds| + maxPages * L` iterations, and on exit the reported
accepted-page counter equals the number of emitted records.  Per-URL
failures (filter rejection, failed fetch, blank text) are soft skips:
the loop still returns a final state. -/
theorem claim_C8_terminates (env : CrawlEnv) (cfg : CrawlConfig) (L : Nat)
    (hL : ∀ u h, (env.extractLinks u h).length ≤ L) :
    (crawl env cfg).iterations ≤ cfg.startUrls.length + cfg.maxPages * L ∧
    (crawl env cfg).pageCount = (crawl env cfg).records.length := by
  constructor
  · have h := crawlLoop_iterations env cfg L hL
      (cfg.startUrls.map (fun u => (u, 0))) [] 0 [] 0 []
    refine le_trans h ?_
    rw [List.length_map, Nat.sub_zero, Nat.zero_add]
  · have h := crawlLoop_main_inv env cfg (cfg.startUrls.map (fun x => (x, 0))) [] 0 [] 0 []
      (by simp) (by simp) rfl (Nat.zero_le _) (by simp)
    exact h.2.1.symm

theorem claim_C8_witness :
    (crawl envC8 cfgC8).iterations ≤ cfgC8.startUrls.length + cfgC8.maxPages * 0 ∧
    (crawl envC8 cfgC8).pageCount = (crawl envC8 cfgC8).records.length :=
  claim_C8_terminates envC8 cfgC8 0 (fun u h => by simp [envC8])

/-- Claim C9: on the query `"1학년 3반 담임"` the service answers from
the staff directory alone.  For every directory, every knowledge text
and every behaviour of the language-model oracle, the endpoint returns
the templated sentence naming the first teacher whose homeroom code is
`"1-3"`, or the templated not-found sentence when there is none; the
`false` flag witnesses that the language-model backend is not invoked
(the result does not depend on `llm` at all). -/
theorem claim_C9_homeroom_query (db : StaffDb) (sk : String) (llm : String → String) :
    ask_ai db sk llm "1학년 3반 담임" =
      Except.ok
        ((match db.teachers.find? (fun t => t.homeroom == some "1-3") with
          | some t => "1학년 3반 담임은 " ++ t.name ++ " 선생님입니다."
          | none => "1학년 3반 담임 정보는 데이터에 없습니다."), false) := by
  have hstr : pyStrip "1학년 3반 담임" = "1학년 3반 담임" := by decide
  have hne : ¬("1학년 3반 담임" : String) = "" := by decide
  unfold ask_ai
  rw [hstr, if_neg hne]
  rw [show answer_from_staff_db db "1학년 3반 담임"
      = answer_from_staff_db_q db (pyStrip "1학년 3반 담임") from rfl, hstr,
    answer_q0 db]

/-- Claim C10: a request whose question is empty after stripping is
rejected with HTTP 400; the result does not depend on the directory, the
knowledge text or the language-model oracle, so none of them is
consulted. -/
theorem claim_C10_blank_question (db : StaffDb) (sk : String)
    (llm : String → String) (payload : String) (h : pyStrip payload = "") :
    ask_ai db sk llm payload = Except.error 400 := by
  unfold ask_ai
  rw [h, if_pos rfl]

theorem claim_C10_witness :
    pyStrip "   " = "" ∧
    ask_ai ⟨[], []⟩ "" (fun _ => "") "   " = Except.error 400 :=
  ⟨by decide, claim_C10_blank_question ⟨[], []⟩ "" (fun _ => "") "   " (by decide)⟩

end CffBot
